import Mathlib

/-!
Verification development for the Yarn2 packager module
(`src/lib/packagers/yarn2.js` of `serverless-webpack`).

Strings are embedded as `List Char`.  The two core transforms are embedded
from the source:

* `rebaseLockfile` — the lockfile path-rebasing transformation, including a
  faithful model of the JavaScript regular expression
  `/[^"\x2f]@(?:file:)?((?:\.\x2f|\.\.\x2f).*?)[":,]/gm` (global `exec` loop)
  and of lodash `replace` with a string pattern (which replaces only the
  first occurrence; replacement-pattern escapes such as a dollar sign
  followed by an ampersand are not modelled, none of the claims concern
  them).

* `getProdDependencies` — the dependency-tree extraction pipeline: error
  recovery for a failed spawn, tolerant line parsing, the version index
  pass, and the recursive conversion into a canonical dependency graph.

`Utils.splitLines` and `Utils.safeJsonParse` are not part of this
repository's sources; following the spec they are modelled as splitting on
the newline character and as an arbitrary parameter returning `none` for a
line whose parse result is empty (unparseable, `null`, or an empty value —
the lodash `isEmpty` filter is folded into the `Option`).
-/

/-- Strings are embedded as lists of characters. -/
abbrev Str := List Char

/-- `leadsWith pat s` holds when `pat` is an initial segment of `s`
(JavaScript `String#startsWith` / matching a literal at the start). -/
def leadsWith (pat s : Str) : Bool := s.take pat.length == pat

/-! ## Lockfile rebasing (`Yarn2.rebaseLockfile`) -/

/-- One match of the lockfile-reference regular expression
`[^"\x2f]@(?:file:)?((?:\.\x2f|\.\.\x2f).*?)[":,]`:
the character before the `@`, whether the optional `file:` prefix was
present, the captured relative path (group 1), and the terminating
character matched by the final character class. -/
structure LockRef where
  pre : Char
  viaFile : Bool
  cap : Str
  term : Char
deriving DecidableEq

/-- The full substring of the lockfile text consumed by a regex match. -/
def LockRef.matched (r : LockRef) : Str :=
  r.pre :: '@' :: (if r.viaFile then ['f', 'i', 'l', 'e', ':'] else []) ++ r.cap ++ [r.term]

/-- Is `c` one of the terminator characters of the character class
`[":,]` ending the regex? -/
def isTermChar (c : Char) : Bool := c == '"' || c == ':' || c == ','

/-- Is `c` a JavaScript line terminator?  The dot in the regex (no `s`
flag) matches any character except these. -/
def isLineTerm (c : Char) : Bool :=
  c == '\n' || c == '\r' || c == '\u2028' || c == '\u2029'

/-- The lazy tail `.*?[":,]` of the regex: scan forward for the first
terminator character, failing if a line terminator (which `.` cannot
match) or the end of input is reached first.  Returns the skipped
characters, the terminator, and the remainder after the terminator. -/
def scanToTerm : Str → Option (Str × Char × Str)
  | [] => none
  | c :: rest =>
    if isTermChar c then some ([], c, rest)
    else if isLineTerm c then none
    else
      match scanToTerm rest with
      | some (skip, t, after) => some (c :: skip, t, after)
      | none => none

/-- The alternation-and-tail part `((?:\.\x2f|\.\.\x2f).*?)[":,]` of the
regex, applied after the optional `file:` prefix: the two ordered (and
disjoint) alternatives for the start of the capture, then the lazy scan
for a terminator. -/
def matchCapture (viaFile : Bool) (c : Char) : Str → Option (LockRef × Str)
  | '.' :: '/' :: r2 =>
    match scanToTerm r2 with
    | some (skip, t, after) => some (⟨c, viaFile, '.' :: '/' :: skip, t⟩, after)
    | none => none
  | '.' :: '.' :: '/' :: r2 =>
    match scanToTerm r2 with
    | some (skip, t, after) => some (⟨c, viaFile, '.' :: '.' :: '/' :: skip, t⟩, after)
    | none => none
  | _ => none

/-- Attempt to match the regex at the start of `s`.  On success returns the
match and the remainder of the text after it (the regex engine resumes at
`lastIndex`, i.e. right after the terminator character).

The optional group `(?:file:)?` is committed to greedily when present:
backtracking to the empty alternative can never succeed, because the
capture group would then have to start with `.` at a position holding `f`. -/
def tryMatch : Str → Option (LockRef × Str)
  | c :: '@' :: rest =>
    if c == '"' || c == '/' then none
    else if rest.take 5 == ['f', 'i', 'l', 'e', ':'] then
      matchCapture true c (rest.drop 5)
    else matchCapture false c rest
  | _ => none

/-- The global `exec` loop: try a match at every position, resuming after
the consumed text on success and at the next character on failure.  The
fuel argument is instantiated with the length of the text, which bounds
the number of steps (every step strictly shortens the text). -/
def scanRefsAux : Nat → Str → List LockRef
  | 0, _ => []
  | _ + 1, [] => []
  | fuel + 1, c :: rest =>
    match tryMatch (c :: rest) with
    | some (r, after) => r :: scanRefsAux fuel after
    | none => scanRefsAux fuel rest

/-- All matches of the lockfile-reference regex in `s`, in text order. -/
def scanRefs (s : Str) : List LockRef := scanRefsAux s.length s

/-- A replacement pair collected from one regex match. -/
structure Replacement where
  oldRef : Str
  newRef : Str
deriving DecidableEq

/-- Replace every backslash with a forward slash
(`_.replace(s, /\\/g, '/')`). -/
def slashNormalize (s : Str) : Str :=
  s.map (fun c => if c == '\\' then '/' else c)

/-- Build the replacement pair for a captured path:
`oldRef` is the capture, `newRef` is
`pathToPackageRoot + "/" + capture` slash-normalized. -/
def mkReplacement (pathToPackageRoot cap : Str) : Replacement :=
  ⟨cap, slashNormalize (pathToPackageRoot ++ '/' :: cap)⟩

/-- The list of replacement pairs collected by the `exec` loop of
`rebaseLockfile`, in discovery order. -/
def collectReplacements (pathToPackageRoot lockfile : Str) : List Replacement :=
  (scanRefs lockfile).map (fun r => mkReplacement pathToPackageRoot r.cap)

/-- Lodash `_.replace(s, old, new)` with a string pattern: delegates to
`String#replace`, which replaces only the FIRST occurrence of `old` (and
returns `s` unchanged when `old` does not occur).  An empty pattern
matches at the start. -/
def replaceFirst (old new : Str) : Str → Str
  | [] => if leadsWith old [] then new else []
  | c :: rest =>
    if leadsWith old (c :: rest) then new ++ (c :: rest).drop old.length
    else c :: replaceFirst old new rest

/-- `Yarn2.rebaseLockfile`: collect all replacement pairs, then fold them
over the lockfile text in discovery order, each step applying lodash
`replace` to the cumulative result of the previous steps. -/
def rebaseLockfile (pathToPackageRoot lockfile : Str) : Str :=
  (collectReplacements pathToPackageRoot lockfile).foldl
    (fun acc rep => replaceFirst rep.oldRef rep.newRef acc) lockfile

/-- Global substitution of the literal pattern `old` by `new`, following
the SPEC's words ("all occurrences of oldPath text are globally
substituted"); written only to compare the specified behaviour with the
source's `rebaseLockfile`.  An empty pattern leaves the text unchanged
(the collected patterns always start with a dot). -/
def replaceAllAux (old new : Str) : Nat → Str → Str
  | 0, s => s
  | fuel + 1, s =>
    match s with
    | [] => []
    | c :: rest =>
      if leadsWith old (c :: rest) ∧ old ≠ [] then
        new ++ replaceAllAux old new fuel (rest.drop (old.length - 1))
      else c :: replaceAllAux old new fuel rest

/-- Global substitution, entry point: the fuel (the text length) bounds the
number of steps, since every step strictly shortens the text. -/
def replaceAll (old new s : Str) : Str := replaceAllAux old new s.length s

/-- The rebase transformation as the spec describes it: the same
replacement pairs, but each applied as a global substitution. -/
def specRebaseLockfile (pathToPackageRoot lockfile : Str) : Str :=
  (collectReplacements pathToPackageRoot lockfile).foldl
    (fun acc rep => replaceAll rep.oldRef rep.newRef acc) lockfile

/-! ## Dependency-tree parsing (`Yarn2.getProdDependencies`) -/

/-- One parsed JSON record of the recursive listing, as far as the parser
reads it: the `value` field (top level), the `locator` field (children),
and the optional `children` object carrying the optional `Version` string
and the optional `Dependencies` array of further records.  A field that is
absent in the JSON (or whose JavaScript read yields `undefined`) is
`none`; `children := none` also covers `null` and any other falsy value.
A surviving non-object line (a JSON string or array, which lodash
`isEmpty` keeps when non-empty) reads all three fields as `undefined` and
is represented by `JItem.mk none none none`. -/
inductive JItem where
  | mk (value : Option Str) (locator : Option Str)
       (children : Option (Option Str × Option (List JItem)))

/-- The `value` field of a record. -/
def JItem.value : JItem → Option Str
  | .mk v _ _ => v

/-- The `locator` field of a record. -/
def JItem.locator : JItem → Option Str
  | .mk _ l _ => l

/-- The `children` field of a record. -/
def JItem.children : JItem → Option (Option Str × Option (List JItem))
  | .mk _ _ ch => ch

/-- `item.children.Version` for a record whose `children` is present. -/
def JItem.childVersion : JItem → Option Str
  | .mk _ _ none => none
  | .mk _ _ (some (ver, _)) => ver

/-- JavaScript `String(x)` as applied by lodash to a possibly-`undefined`
string field: `undefined` stringifies to the empty string. -/
def jsToString (v : Option Str) : Str := v.getD []

/-- A possibly-`undefined` value used as a JavaScript object KEY:
`undefined` is coerced to the string `"undefined"`. -/
def jsKey (v : Option Str) : Str :=
  match v with
  | some s => s
  | none => ['u', 'n', 'd', 'e', 'f', 'i', 'n', 'e', 'd']

/-- The VersionIndex: a JavaScript object mapping locator keys to
(possibly `undefined`) version strings.  Assignments are prepended, so the
first match is the latest assignment. -/
abbrev VIdx := List (Str × Option Str)

/-- Read `versions[k]`: the latest value assigned to `k`, or `undefined`
when `k` was never assigned. -/
def lookupVersion : VIdx → Str → Option Str
  | [], _ => none
  | (k', v) :: rest, k => if k' = k then v else lookupVersion rest k

/-- The index pass
`_.forEach(parsedValues, item => versions[item.value] = item.children.Version)`:
each record assigns its `children.Version` under its `value` key.  Reading
`.Version` of an absent `children` throws a `TypeError`, modelled as
`Except.error`. -/
def buildVersionsAux : VIdx → List JItem → Except Unit VIdx
  | vs, [] => .ok vs
  | vs, JItem.mk v _ ch :: rest =>
    match ch with
    | none => .error ()
    | some (ver, _) => buildVersionsAux ((jsKey v, ver) :: vs) rest

/-- The VersionIndex built over all surviving top-level records. -/
def buildVersions (items : List JItem) : Except Unit VIdx :=
  buildVersionsAux [] items

/-- Prepend a character to the first fragment of a fragment list. -/
def splitCons (c : Char) : List Str → List Str
  | [] => [[]]
  | h :: t => (c :: h) :: t

/-- `_.split(s, sep)` with a single-character string separator: standard
`String#split`, the empty string splitting to one empty fragment.  A
separator character opens a new fragment; any other character is prepended
to the first fragment of the split of the remainder (which is never
empty, making the `[]` case of `splitCons` unreachable). -/
def splitOnChar (sep : Char) : Str → List Str
  | [] => [[]]
  | c :: rest =>
    if c = sep then [] :: splitOnChar sep rest
    else splitCons c (splitOnChar sep rest)

/-- The canonical package name extracted from a locator field:
`_.split(data[path], '@')`, with the scope re-attached when the locator
starts with `@` (`splice(0, 1)` then prepending `@` to the new first
fragment), and finally `_.first`.  An `undefined` locator stringifies to
the empty string.  The scoped branch with fewer than two fragments is
unreachable, since a string starting with `@` splits into at least two
fragments. -/
def moduleName (v : Option Str) : Str :=
  let s := jsToString v
  let parts := splitOnChar '@' s
  let parts1 :=
    match s, parts with
    | '@' :: _, _ :: h :: t => ('@' :: h) :: t
    | '@' :: _, _ => []
    | _, _ => parts
  parts1.headD []

/-- A canonical dependency node: the resolved version (`none` standing for
`undefined`) and the mapping of child name to child node. -/
inductive DepNode where
  | mk (version : Option Str) (dependencies : List (Str × DepNode))

/-- The `version` field of a node. -/
def DepNode.version : DepNode → Option Str
  | .mk v _ => v

/-- The `dependencies` mapping of a node. -/
def DepNode.dependencies : DepNode → List (Str × DepNode)
  | .mk _ d => d

/-- JavaScript object property assignment `obj[k] = v` on an object
represented as an insertion-ordered association list: an existing key is
updated in place, a new key is appended. -/
def objInsert (k : Str) (v : DepNode) : List (Str × DepNode) → List (Str × DepNode)
  | [] => [(k, v)]
  | (k', v') :: rest => if k' = k then (k, v) :: rest else (k', v') :: objInsert k v rest

/-- Assemble an object from a list of `(key, node)` assignments performed
in order on an initially empty object. -/
def buildObj (entries : List (Str × DepNode)) : List (Str × DepNode) :=
  entries.foldl (fun o kv => objInsert kv.1 kv.2 o) []

/-- Which record field `convertValues` reads the locator from: `value` at
the top level, `locator` for children. -/
inductive PathField where
  | value
  | locator
deriving DecidableEq

/-- Read the field selected by `path`. -/
def getField : PathField → JItem → Option Str
  | .value, it => it.value
  | .locator, it => it.locator

mutual

/-- One step of the `_.reduce` in `convertValues`: the `(key, node)` pair a
record contributes.  The key is the corrected module name; the node's
version is read from the VersionIndex under the record's ORIGINAL locator
key; the node's dependencies recurse into `children.Dependencies` (reading
the `locator` field) when `children` is truthy, and are the empty object
otherwise (also when `Dependencies` is absent: `_.reduce(undefined)`
returns the accumulator). -/
def convertEntry (vs : VIdx) (path : PathField) : JItem → Str × DepNode
  | JItem.mk v l ch =>
    let fieldVal := getField path (JItem.mk v l ch)
    let deps : List (Str × DepNode) :=
      match ch with
      | none => []
      | some (_, none) => []
      | some (_, some ds) => buildObj (convertList vs ds)
    (moduleName fieldVal, DepNode.mk (lookupVersion vs (jsKey fieldVal)) deps)

/-- The contributions of a list of child records in order (each read via
its `locator` field). -/
def convertList (vs : VIdx) : List JItem → List (Str × DepNode)
  | [] => []
  | it :: rest => convertEntry vs PathField.locator it :: convertList vs rest

end

/-- The contributions of the top-level records in order (each read via its
`value` field). -/
def convertTopList (vs : VIdx) : List JItem → List (Str × DepNode)
  | [] => []
  | it :: rest => convertEntry vs PathField.value it :: convertTopList vs rest

/-- `convertValues(values, path)` as called on a record list: the
`_.reduce` computes each record's `(key, node)` pair independently of the
accumulated object and assigns them in order, so it equals building the
object from the listed contributions. -/
def convertValues (vs : VIdx) (path : PathField) (items : List JItem) : List (Str × DepNode) :=
  match path with
  | .value => buildObj (convertTopList vs items)
  | .locator => buildObj (convertList vs items)

/-- The canonical output graph: an always-empty `problems` sequence and the
top-level dependencies object. -/
structure DependencyGraph where
  problems : List Str
  dependencies : List (Str × DepNode)

/-- The conversion from the surviving parsed lines to a DependencyGraph:
the index pass (which can throw) followed by the tree pass. -/
def buildGraph (items : List JItem) : Except Unit DependencyGraph :=
  match buildVersions items with
  | .error e => .error e
  | .ok vs => .ok ⟨[], convertValues vs PathField.value items⟩

/-! ## Process invocation result and error recovery -/

/-- A failed spawn (`Utils.SpawnError`): the captured output streams. -/
structure SpawnError where
  stdout : Str
  stderr : Str
deriving DecidableEq

/-- Outcome of the external `yarn info --recursive --json` invocation:
success with captured stdout, a spawn failure carrying both streams, or
any other rejection. -/
inductive ProcResult where
  | ok (stdout : Str)
  | spawnError (e : SpawnError)
  | otherError

/-- The configured ignore-list of benign npm error markers
(`ignoredYarnErrors` in the source): empty. -/
def ignoredYarnErrors : List Str := []

/-- One step of the `_.reduce` classifying stderr lines: a line is
critical when it is non-empty and does not start with
`npm ERR! <ignored>` for any configured ignored error. -/
def lineCritical (l : Str) : Bool :=
  !l.isEmpty &&
    !(ignoredYarnErrors.any fun ig =>
      leadsWith (['n', 'p', 'm', ' ', 'E', 'R', 'R', '!', ' '] ++ ig) l)

/-- Errors the embedded pipeline can produce: the propagated spawn
failure, any other propagated rejection, and the `TypeError` thrown by
reading `.Version` of an absent `children`. -/
inductive YarnError where
  | spawn (e : SpawnError)
  | other
  | typeError
deriving DecidableEq

/-- The `.catch` recovery of `getProdDependencies`: a spawn failure whose
stderr lines are all benign and whose stdout is non-empty resolves to the
partial stdout; every other failure is re-rejected. -/
def recoverSpawn : ProcResult → Except YarnError Str
  | .ok out => .ok out
  | .otherError => .error .other
  | .spawnError e =>
    let failed := ((splitOnChar '\n' e.stderr).foldl
      (fun failed l => failed || lineCritical l) false)
    if !failed && !e.stdout.isEmpty then .ok e.stdout else .error (.spawn e)

/-- Modelled from the spec: `Utils.splitLines` (not part of this
repository's sources) — "splitting tool output into lines", modelled as
splitting on the newline character. -/
def splitLines (s : Str) : List Str := splitOnChar '\n' s

/-- The tolerant line-parsing stage: split stdout into lines, parse each
independently (`Utils.safeJsonParse`, not part of this repository's
sources, is the parameter `sjp`: it is modelled from the spec as
returning `none` for a line whose parse result is empty — unparseable,
`null`, or an empty value, folding in the `!_.isEmpty` filter), and keep
the non-empty results. -/
def parseStage (sjp : Str → Option JItem) (stdout : Str) : List JItem :=
  ((splitLines stdout).map sjp).filterMap id

/-- `Yarn2.getProdDependencies`, from the process outcome to the graph:
recover or propagate the spawn result, run the tolerant line parse on the
resulting stdout, then the index pass (which can throw a `TypeError`) and
the tree pass. -/
def getProdDependencies (sjp : Str → Option JItem) (res : ProcResult) :
    Except YarnError DependencyGraph :=
  match recoverSpawn res with
  | .error err => .error err
  | .ok stdout =>
    let parsed := parseStage sjp stdout
    match buildVersions parsed with
    | .error _ => .error .typeError
    | .ok vs => .ok ⟨[], convertValues vs PathField.value parsed⟩

/-- Join a list of lines with newline separators (the inverse of
`splitLines` on newline-free fragments); used to state the removal of
garbage lines from an input text. -/
def joinLines : List Str → Str
  | [] => []
  | [l] => l
  | l :: l2 :: ls => l ++ '\n' :: joinLines (l2 :: ls)

/-- A concrete instantiation of the line-parse parameter, used only in
concrete evaluations: the line `J` parses to an otherwise empty record,
anything else is garbage. -/
def sjp0 : Str → Option JItem
  | ['J'] => some (JItem.mk none none none)
  | _ => none

/-- A concrete instantiation of the line-parse parameter: the line `J`
parses to a record carrying an (empty) `children` object. -/
def sjpOkDemo : Str → Option JItem
  | ['J'] => some (JItem.mk (some ['x']) none (some (none, none)))
  | _ => none

/-- A concrete instantiation of the line-parse parameter: the line `J`
parses to a record with a `value` but no `children` (as the JSON object
holding only a `value` field does). -/
def sjpChildless : Str → Option JItem
  | ['J'] => some (JItem.mk (some ['x']) none none)
  | _ => none

/-! ## Helper lemmas -/

lemma leadsWith_same (pat post : Str) : leadsWith pat (pat ++ post) = true := by
  simp [leadsWith, List.take_left]

lemma scanToTerm_some {l skip after : Str} {t : Char}
    (h : scanToTerm l = some (skip, t, after)) :
    isTermChar t = true ∧ l = skip ++ t :: after := by
  induction l generalizing skip with
  | nil => simp [scanToTerm] at h
  | cons c rest ih =>
    rw [scanToTerm] at h
    split at h
    · next hterm =>
      obtain ⟨rfl, rfl, rfl⟩ : [] = skip ∧ c = t ∧ rest = after := by
        simpa using h
      exact ⟨hterm, rfl⟩
    · split at h
      · simp at h
      · split at h
        · next skip1 t1 after1 hrec =>
          obtain ⟨rfl, rfl, rfl⟩ : c :: skip1 = skip ∧ t1 = t ∧ after1 = after := by
            simpa using h
          obtain ⟨h1, h2⟩ := ih hrec
          exact ⟨h1, by simp [h2]⟩
        · simp at h

lemma eq_append_drop_of_take_beq {l pat : Str} (h : (l.take pat.length == pat) = true) :
    l = pat ++ l.drop pat.length := by
  have h1 : l.take pat.length = pat := by simpa using h
  conv_lhs => rw [← List.take_append_drop pat.length l]
  rw [h1]

lemma matchCapture_some {vf : Bool} {c : Char} {rest1 after : Str} {r : LockRef}
    (h : matchCapture vf c rest1 = some (r, after)) :
    (leadsWith ['.', '/'] r.cap = true ∨ leadsWith ['.', '.', '/'] r.cap = true)
    ∧ isTermChar r.term = true
    ∧ r.pre = c ∧ r.viaFile = vf
    ∧ rest1 = r.cap ++ r.term :: after := by
  rw [matchCapture.eq_def] at h
  split at h
  · next r2 =>
    split at h
    · next skip t after1 hrec =>
      obtain ⟨h1, h2⟩ := scanToTerm_some hrec
      obtain ⟨rfl, rfl⟩ : (⟨c, vf, '.' :: '/' :: skip, t⟩ : LockRef) = r ∧ after1 = after := by
        constructor
        · exact congrArg Prod.fst (Option.some.inj h)
        · exact congrArg Prod.snd (Option.some.inj h)
      refine ⟨Or.inl (leadsWith_same _ _), h1, rfl, rfl, ?_⟩
      simp [h2]
    · simp at h
  · next r2 =>
    split at h
    · next skip t after1 hrec =>
      obtain ⟨h1, h2⟩ := scanToTerm_some hrec
      obtain ⟨rfl, rfl⟩ : (⟨c, vf, '.' :: '.' :: '/' :: skip, t⟩ : LockRef) = r ∧ after1 = after := by
        constructor
        · exact congrArg Prod.fst (Option.some.inj h)
        · exact congrArg Prod.snd (Option.some.inj h)
      refine ⟨Or.inr (leadsWith_same _ _), h1, rfl, rfl, ?_⟩
      simp [h2]
    · simp at h
  · simp at h

lemma tryMatch_some {s after : Str} {r : LockRef}
    (h : tryMatch s = some (r, after)) :
    (leadsWith ['.', '/'] r.cap = true ∨ leadsWith ['.', '.', '/'] r.cap = true)
    ∧ isTermChar r.term = true
    ∧ r.pre ≠ '"' ∧ r.pre ≠ '/'
    ∧ s = r.matched ++ after := by
  rw [tryMatch.eq_def] at h
  split at h
  · next c rest =>
    split at h
    · simp at h
    · next hguard =>
      have hpre : ¬(c = '"' ∨ c = '/') := by simpa using hguard
      split at h
      · next hfile =>
        obtain ⟨hcap, hterm, hprec, hvf, hrest1⟩ := matchCapture_some h
        refine ⟨hcap, hterm, by rw [hprec]; exact fun hc => hpre (Or.inl hc),
          by rw [hprec]; exact fun hc => hpre (Or.inr hc), ?_⟩
        have hfile1 : (rest.take (['f', 'i', 'l', 'e', ':'] : Str).length
            == ['f', 'i', 'l', 'e', ':']) = true := by simpa using hfile
        have hfsplit : rest = ['f', 'i', 'l', 'e', ':'] ++ rest.drop 5 := by
          simpa using eq_append_drop_of_take_beq hfile1
        rw [LockRef.matched, hprec, hvf]
        simp only [if_pos]
        rw [show (c :: '@' :: rest : Str)
            = c :: '@' :: (['f', 'i', 'l', 'e', ':'] ++ rest.drop 5) from by rw [← hfsplit]]
        simp [hrest1]
      · obtain ⟨hcap, hterm, hprec, hvf, hrest1⟩ := matchCapture_some h
        refine ⟨hcap, hterm, by rw [hprec]; exact fun hc => hpre (Or.inl hc),
          by rw [hprec]; exact fun hc => hpre (Or.inr hc), ?_⟩
        rw [LockRef.matched, hprec, hvf]
        simp [hrest1]
  · simp at h

lemma scanRefsAux_mem {n : Nat} {s : Str} {r : LockRef} (h : r ∈ scanRefsAux n s) :
    (leadsWith ['.', '/'] r.cap = true ∨ leadsWith ['.', '.', '/'] r.cap = true)
    ∧ isTermChar r.term = true
    ∧ r.pre ≠ '"' ∧ r.pre ≠ '/'
    ∧ List.IsInfix r.matched s := by
  induction n generalizing s with
  | zero => simp [scanRefsAux] at h
  | succ n ih =>
    cases s with
    | nil => simp [scanRefsAux] at h
    | cons c rest =>
      rw [scanRefsAux] at h
      split at h
      · next r0 after htm =>
        obtain ⟨hcap, hterm, h1, h2, heq⟩ := tryMatch_some htm
        rcases List.mem_cons.mp h with rfl | hmem
        · exact ⟨hcap, hterm, h1, h2, ⟨[], after, by simp [heq]⟩⟩
        · obtain ⟨a, b, c2, d, hinf⟩ := ih hmem
          exact ⟨a, b, c2, d, hinf.trans ⟨r0.matched, [], by simp [← heq]⟩⟩
      · obtain ⟨a, b, c2, d, hinf⟩ := ih h
        exact ⟨a, b, c2, d, hinf.trans ⟨[c], [], by simp⟩⟩

lemma scanRefs_mem {t : Str} {r : LockRef} (h : r ∈ scanRefs t) :
    (leadsWith ['.', '/'] r.cap = true ∨ leadsWith ['.', '.', '/'] r.cap = true)
    ∧ isTermChar r.term = true
    ∧ r.pre ≠ '"' ∧ r.pre ≠ '/'
    ∧ List.IsInfix r.matched t :=
  scanRefsAux_mem h

lemma rebase_of_no_refs (p t : Str) (h : scanRefs t = []) : rebaseLockfile p t = t := by
  rw [rebaseLockfile, collectReplacements, h]
  rfl

lemma replaceFirst_at {old new pre post : Str} (hne : old ≠ [])
    (hfirst : ∀ i, i < pre.length → leadsWith old ((pre ++ old ++ post).drop i) = false) :
    replaceFirst old new (pre ++ old ++ post) = pre ++ new ++ post := by
  induction pre with
  | nil =>
    obtain ⟨o, os, rfl⟩ : ∃ o os, old = o :: os := by
      cases old with
      | nil => exact absurd rfl hne
      | cons o os => exact ⟨o, os, rfl⟩
    rw [List.nil_append, List.nil_append, List.cons_append, replaceFirst,
      if_pos (by simpa using leadsWith_same (o :: os) post)]
    simp [List.drop_left]
  | cons c pre ih =>
    have h0 : leadsWith old (c :: (pre ++ old ++ post)) = false := by
      simpa using hfirst 0 (by simp)
    rw [List.cons_append, List.cons_append, replaceFirst,
      if_neg (by simp [← List.append_assoc, h0])]
    rw [List.cons_append, List.cons_append]
    congr 1
    apply ih
    intro i hi
    have := hfirst (i + 1) (by simpa using Nat.succ_lt_succ hi)
    simpa using this

lemma splitOnChar_ne_nil (sep : Char) (s : Str) : splitOnChar sep s ≠ [] := by
  cases s with
  | nil => simp [splitOnChar]
  | cons c rest =>
    rw [splitOnChar]
    split
    · simp
    · rw [splitCons.eq_def]
      split <;> simp

lemma splitOnChar_cons_of_split (sep : Char) (s : Str) :
    ∃ h1 t1, splitOnChar sep s = h1 :: t1 := by
  cases hx : splitOnChar sep s with
  | nil => exact absurd hx (splitOnChar_ne_nil sep s)
  | cons a b => exact ⟨a, b, rfl⟩

lemma splitOnChar_head (sep : Char) (s : Str) :
    ∃ t1, splitOnChar sep s = s.takeWhile (fun c => c ≠ sep) :: t1 := by
  induction s with
  | nil => exact ⟨[], rfl⟩
  | cons c rest ih =>
    obtain ⟨t1, ht⟩ := ih
    by_cases hc : c = sep
    · subst hc
      refine ⟨splitOnChar c rest, ?_⟩
      rw [splitOnChar, if_pos rfl]
      simp [List.takeWhile_cons]
    · refine ⟨t1, ?_⟩
      rw [splitOnChar, if_neg hc, ht, splitCons]
      simp [List.takeWhile_cons, hc]

lemma mem_splitOnChar_not_sep {sep : Char} {s l : Str} (h : l ∈ splitOnChar sep s) :
    sep ∉ l := by
  induction s generalizing l with
  | nil =>
    simp [splitOnChar] at h
    simp [h]
  | cons c rest ih =>
    rw [splitOnChar] at h
    by_cases hc : c = sep
    · rw [if_pos hc] at h
      rcases List.mem_cons.mp h with rfl | hmem
      · simp
      · exact ih hmem
    · rw [if_neg hc] at h
      obtain ⟨h1, t1, hsp⟩ := splitOnChar_cons_of_split sep rest
      rw [hsp, splitCons] at h
      rcases List.mem_cons.mp h with rfl | hmem
      · have hh1 : sep ∉ h1 := ih (by rw [hsp]; exact List.mem_cons_self _ _)
        intro hsep
        rcases List.mem_cons.mp hsep with h1eq | h1mem
        · exact hc h1eq.symm
        · exact hh1 h1mem
      · exact ih (by rw [hsp]; exact List.mem_cons_of_mem _ hmem)

lemma splitOnChar_sep_append {sep : Char} {l : Str} (hl : sep ∉ l) (r : Str) :
    splitOnChar sep (l ++ sep :: r) = l :: splitOnChar sep r := by
  induction l with
  | nil => rw [List.nil_append, splitOnChar, if_pos rfl]
  | cons c cl ih =>
    have hc : c ≠ sep := fun h => hl (by simp [h])
    have hcl : sep ∉ cl := fun h => hl (List.mem_cons_of_mem _ h)
    rw [List.cons_append, splitOnChar, if_neg hc, ih hcl, splitCons]

lemma splitOnChar_no_sep {sep : Char} {l : Str} (hl : sep ∉ l) :
    splitOnChar sep l = [l] := by
  induction l with
  | nil => rfl
  | cons c cl ih =>
    have hc : c ≠ sep := fun h => hl (by simp [h])
    have hcl : sep ∉ cl := fun h => hl (List.mem_cons_of_mem _ h)
    rw [splitOnChar, if_neg hc, ih hcl, splitCons]

lemma moduleName_scoped (s : Str) :
    moduleName (some ('@' :: s)) = '@' :: s.takeWhile (fun c => c ≠ '@') := by
  obtain ⟨t1, ht⟩ := splitOnChar_head '@' s
  have hparts : splitOnChar '@' ('@' :: s)
      = [] :: s.takeWhile (fun c => c ≠ '@') :: t1 := by
    rw [splitOnChar, if_pos rfl, ht]
  simp [moduleName, jsToString, hparts]

lemma buildVersionsAux_ok_of_children {items : List JItem} {acc : VIdx}
    (h : ∀ it ∈ items, it.children.isSome = true) :
    ∃ vs, buildVersionsAux acc items = Except.ok vs := by
  induction items generalizing acc with
  | nil => exact ⟨acc, rfl⟩
  | cons it rest ih =>
    obtain ⟨v, l, ch⟩ := it
    cases ch with
    | none =>
      have := h (JItem.mk v l none) (List.mem_cons_self _ _)
      simp [JItem.children] at this
    | some p =>
      obtain ⟨ver, deps⟩ := p
      exact ih (fun x hx => h x (List.mem_cons_of_mem _ hx))

lemma buildVersionsAux_lookup_skip {items : List JItem} {acc vs : VIdx} {k : Str}
    (h : buildVersionsAux acc items = Except.ok vs)
    (hk : ∀ it ∈ items, jsKey it.value ≠ k) :
    lookupVersion vs k = lookupVersion acc k := by
  induction items generalizing acc with
  | nil =>
    have : acc = vs := by simpa [buildVersionsAux] using h
    rw [this]
  | cons it rest ih =>
    obtain ⟨v, l, ch⟩ := it
    cases ch with
    | none => simp [buildVersionsAux] at h
    | some p =>
      obtain ⟨ver, deps⟩ := p
      have h1 : buildVersionsAux ((jsKey v, ver) :: acc) rest = Except.ok vs := h
      have hkv : jsKey v ≠ k := by
        have := hk (JItem.mk v l (some (ver, deps))) (List.mem_cons_self _ _)
        simpa [JItem.value] using this
      rw [ih h1 (fun x hx => hk x (List.mem_cons_of_mem _ hx)), lookupVersion,
        if_neg hkv]

lemma buildVersionsAux_lookup {items : List JItem} {acc vs : VIdx} {it : JItem}
    (h : buildVersionsAux acc items = Except.ok vs)
    (hnd : (items.map (fun i => jsKey i.value)).Nodup)
    (hmem : it ∈ items) :
    lookupVersion vs (jsKey it.value) = it.childVersion := by
  induction items generalizing acc with
  | nil => simp at hmem
  | cons hd rest ih =>
    obtain ⟨v, l, ch⟩ := hd
    cases ch with
    | none => simp [buildVersionsAux] at h
    | some p =>
      obtain ⟨ver, deps⟩ := p
      have h1 : buildVersionsAux ((jsKey v, ver) :: acc) rest = Except.ok vs := h
      obtain ⟨hhd, hnd1⟩ := List.nodup_cons.mp hnd
      rcases List.mem_cons.mp hmem with rfl | hmem1
      · have hk : ∀ i ∈ rest,
            jsKey i.value ≠ jsKey (JItem.mk v l (some (ver, deps))).value := by
          intro i hi hcontra
          exact hhd (by
            rw [JItem.value] at hcontra
            exact List.mem_map.mpr ⟨i, hi, hcontra⟩)
        rw [buildVersionsAux_lookup_skip h1 hk]
        simp [lookupVersion, JItem.value, JItem.childVersion]
      · exact ih h1 hnd1 hmem1

lemma splitLines_joinLines {ls : List Str} (hne : ls ≠ [])
    (hl : ∀ l ∈ ls, '\n' ∉ l) :
    splitLines (joinLines ls) = ls := by
  induction ls with
  | nil => exact absurd rfl hne
  | cons l rest ih =>
    cases rest with
    | nil =>
      rw [joinLines, splitLines, splitOnChar_no_sep (hl l (List.mem_cons_self _ _))]
    | cons l2 rest2 =>
      rw [joinLines, splitLines, splitOnChar_sep_append (hl l (List.mem_cons_self _ _))]
      have := ih (by simp) (fun x hx => hl x (List.mem_cons_of_mem _ hx))
      rw [splitLines] at this
      rw [this]

lemma filterMap_keep_isSome {α β : Type} (f : α → Option β) (l : List α) :
    (l.filter (fun x => (f x).isSome)).filterMap f = l.filterMap f := by
  induction l with
  | nil => rfl
  | cons a l ih =>
    by_cases h : (f a).isSome
    · obtain ⟨b, hb⟩ := Option.isSome_iff_exists.mp h
      simp [List.filter_cons, h, List.filterMap_cons, hb, ih]
    · have hb : f a = none := Option.not_isSome_iff_eq_none.mp h
      simp [List.filter_cons, h, List.filterMap_cons, hb, ih]

lemma parseStage_eq_filterMap (sjp : Str → Option JItem) (s : Str) :
    parseStage sjp s = (splitLines s).filterMap sjp := by
  rw [parseStage, List.filterMap_map]
  rfl

lemma buildVersions_ok_of_children {items : List JItem}
    (h : ∀ it ∈ items, it.children.isSome = true) :
    ∃ vs, buildVersions items = Except.ok vs :=
  buildVersionsAux_ok_of_children h

/-- Claim C1 (counterexample): on a lockfile with two occurrences of the
same reference, the source's rebase differs from the spec's global
substitution — the first application of the pair rewrites only the first
occurrence, and the second application hits the text just introduced
(whose `newRef` contains `oldRef` as a substring) instead of the second
occurrence. -/
theorem rebaseLockfile_not_global_cex :
    rebaseLockfile ['r'] (" a@file:./x\" b@file:./x\"").toList
      ≠ specRebaseLockfile ['r'] (" a@file:./x\" b@file:./x\"").toList := by
  decide

/-- Claim C1 (amended): the replacement pairs are processed in discovery
order over the cumulative result, but each application replaces only the
FIRST occurrence of the literal `oldRef` in the cumulative text (lodash
`replace` with a string pattern), not every occurrence: when `old` first
occurs right after the prefix `pre`, the replacement yields
`pre ++ new ++ post`, leaving any later occurrences inside `post`
untouched. -/
theorem rebaseLockfile_first_occurrence_only (p t old new pre post : Str)
    (hne : old ≠ [])
    (hfirst : ∀ i, i < pre.length → leadsWith old ((pre ++ old ++ post).drop i) = false) :
    rebaseLockfile p t = (collectReplacements p t).foldl
        (fun acc rep => replaceFirst rep.oldRef rep.newRef acc) t
    ∧ replaceFirst old new (pre ++ old ++ post) = pre ++ new ++ post :=
  ⟨rfl, replaceFirst_at hne hfirst⟩

theorem rebaseLockfile_first_occurrence_only_witness :
    ((['.', '/'] : Str) ≠ [])
    ∧ (∀ i, i < (['a'] : Str).length →
        leadsWith ['.', '/'] (((['a'] : Str) ++ ['.', '/'] ++ ['b']).drop i) = false)
    ∧ (rebaseLockfile [] [] = (collectReplacements [] []).foldl
        (fun acc rep => replaceFirst rep.oldRef rep.newRef acc) []
      ∧ replaceFirst ['.', '/'] ['n'] ((['a'] : Str) ++ ['.', '/'] ++ ['b'])
          = ['a'] ++ ['n'] ++ ['b']) :=
  ⟨by decide, by decide,
    rebaseLockfile_first_occurrence_only [] [] ['.', '/'] ['n'] ['a'] ['b']
      (by decide) (by decide)⟩

/-- Claim C2 (counterexample): a surviving parsed line with no `children`
value (for example the JSON object with only a `value` field) makes the
index pass read `.Version` of `undefined`, a thrown `TypeError` — the
conversion from parsed lines to a DependencyGraph is NOT total. -/
theorem buildGraph_typeError_cex :
    buildGraph [JItem.mk (some ['x']) none none] = Except.error () := rfl

/-- Claim C2 (amended): the conversion never throws PROVIDED every
surviving top-level entry has a `children` value; entries with missing
version data yield a node with `version` undefined (`none`) rather than
an error, and an entry whose locator has no recorded version gets
`version` undefined. -/
theorem buildGraph_ok_of_children (items : List JItem)
    (h : ∀ it ∈ items, it.children.isSome = true) :
    (∃ vs, buildVersions items = Except.ok vs
        ∧ buildGraph items = Except.ok ⟨[], convertValues vs PathField.value items⟩)
    ∧ (∀ vs path it, lookupVersion vs (jsKey (getField path it)) = none →
        (convertEntry vs path it).2.version = none) := by
  constructor
  · obtain ⟨vs, hvs⟩ := buildVersions_ok_of_children h
    exact ⟨vs, hvs, by simp [buildGraph, hvs]⟩
  · intro vs path it hlook
    obtain ⟨v, l, ch⟩ := it
    simp [convertEntry, DepNode.version]
    exact hlook

theorem buildGraph_ok_of_children_witness :
    (∀ it ∈ [JItem.mk (some ['x']) none (some (none, none))], it.children.isSome = true)
    ∧ ((∃ vs, buildVersions [JItem.mk (some ['x']) none (some (none, none))] = Except.ok vs
        ∧ buildGraph [JItem.mk (some ['x']) none (some (none, none))]
          = Except.ok ⟨[], convertValues vs PathField.value
              [JItem.mk (some ['x']) none (some (none, none))]⟩)
      ∧ (∀ vs path it, lookupVersion vs (jsKey (getField path it)) = none →
          (convertEntry vs path it).2.version = none)) :=
  ⟨by decide, buildGraph_ok_of_children _ (by decide)⟩

/-- Claim C3: every match extracted by the rebase scan occurs verbatim in
the lockfile text as the preceding character, `@`, the optional `file:`
prefix and the captured path followed by the terminator; the captured
path starts with `./` or `../`; and the capture ends immediately before a
character among `"`, `/`, `:`, `,` (the character class of the regex is
in fact the subset without `/`). -/
theorem scanRefs_match_shape (t : Str) (r : LockRef) (h : r ∈ scanRefs t) :
    List.IsInfix r.matched t
    ∧ (leadsWith ['.', '/'] r.cap = true ∨ leadsWith ['.', '.', '/'] r.cap = true)
    ∧ (r.term = '"' ∨ r.term = '/' ∨ r.term = ':' ∨ r.term = ',') := by
  obtain ⟨hcap, hterm, _, _, hinf⟩ := scanRefs_mem h
  refine ⟨hinf, hcap, ?_⟩
  simp [isTermChar] at hterm
  tauto

theorem scanRefs_match_shape_witness :
    ((⟨'a', false, ['.', '/', 'q'], ':'⟩ : LockRef) ∈ scanRefs ("a@./q:").toList)
    ∧ (List.IsInfix (LockRef.matched ⟨'a', false, ['.', '/', 'q'], ':'⟩) ("a@./q:").toList
      ∧ (leadsWith ['.', '/'] ['.', '/', 'q'] = true
        ∨ leadsWith ['.', '.', '/'] ['.', '/', 'q'] = true)
      ∧ ((':' : Char) = '"' ∨ (':' : Char) = '/' ∨ (':' : Char) = ':' ∨ (':' : Char) = ',')) :=
  ⟨by decide, scanRefs_match_shape ("a@./q:").toList ⟨'a', false, ['.', '/', 'q'], ':'⟩ (by decide)⟩

/-- Claim C4: a locator beginning with `@` (scoped package) contributes
the scope-qualified name with the `@` prefix preserved as the key: the
`@` plus everything up to the next `@` of the locator. -/
theorem convertEntry_scoped_key (vs : VIdx) (path : PathField) (it : JItem) (s : Str)
    (h : getField path it = some ('@' :: s)) :
    (convertEntry vs path it).1 = '@' :: s.takeWhile (fun c => c ≠ '@') := by
  obtain ⟨v, l, ch⟩ := it
  simp [convertEntry]
  rw [h, moduleName_scoped]
  simp [Ne, decide_not]

theorem convertEntry_scoped_key_witness :
    (getField PathField.value
        (JItem.mk (some ("@scope/name@1.0.0").toList) none none)
      = some ('@' :: ("scope/name@1.0.0").toList))
    ∧ (convertEntry [] PathField.value
        (JItem.mk (some ("@scope/name@1.0.0").toList) none none)).1
      = '@' :: (("scope/name@1.0.0").toList.takeWhile (fun c => c ≠ '@'))
    ∧ (convertEntry [] PathField.value
        (JItem.mk (some ("@scope/name@1.0.0").toList) none none)).1
      = ("@scope/name").toList
    ∧ (convertEntry [] PathField.locator
        (JItem.mk none (some ("@scope/name@^1.0.0::locator=root%40workspace%3A.").toList) none)).1
      = ("@scope/name").toList :=
  ⟨by decide,
    convertEntry_scoped_key [] PathField.value
      (JItem.mk (some ("@scope/name@1.0.0").toList) none none)
      ("scope/name@1.0.0").toList (by decide),
    by decide, by decide⟩

/-- Claim C5: a node's `version` is the value stored in the VersionIndex
under the entry's own original, uncorrected locator string (never the
corrected name), and — when top-level locator keys are distinct — the
index lookup under an entry's own locator returns that entry's recorded
`children.Version`, never a sibling's. -/
theorem version_from_own_locator :
    (∀ vs path it, (convertEntry vs path it).2.version
        = lookupVersion vs (jsKey (getField path it)))
    ∧ (∀ items vs it, buildVersions items = Except.ok vs →
        (items.map (fun i => jsKey i.value)).Nodup → it ∈ items →
        lookupVersion vs (jsKey it.value) = it.childVersion) := by
  constructor
  · intro vs path it
    obtain ⟨v, l, ch⟩ := it
    simp [convertEntry, DepNode.version]
  · intro items vs it h hnd hmem
    exact buildVersionsAux_lookup h hnd hmem

theorem version_from_own_locator_witness :
    (buildVersions [JItem.mk (some ['a']) none (some (some ['1'], none)),
        JItem.mk (some ['b']) none (some (some ['2'], none))]
      = Except.ok [(['b'], some ['2']), (['a'], some ['1'])])
    ∧ (([JItem.mk (some ['a']) none (some (some ['1'], none)),
        JItem.mk (some ['b']) none (some (some ['2'], none))].map
          (fun i => jsKey i.value)).Nodup)
    ∧ (JItem.mk (some ['b']) none (some (some ['2'], none))
        ∈ [JItem.mk (some ['a']) none (some (some ['1'], none)),
           JItem.mk (some ['b']) none (some (some ['2'], none))])
    ∧ lookupVersion [(['b'], some ['2']), (['a'], some ['1'])]
        (jsKey (JItem.mk (some ['b']) none (some (some ['2'], none))).value)
      = (JItem.mk (some ['b']) none (some (some ['2'], none))).childVersion :=
  ⟨rfl, by decide, List.mem_cons_of_mem _ (List.mem_cons_self _ _),
    version_from_own_locator.2
      [JItem.mk (some ['a']) none (some (some ['1'], none)),
        JItem.mk (some ['b']) none (some (some ['2'], none))]
      [(['b'], some ['2']), (['a'], some ['1'])]
      (JItem.mk (some ['b']) none (some (some ['2'], none)))
      rfl (by decide)
      (List.mem_cons_of_mem _ (List.mem_cons_self _ _))⟩

/-- Claim C6: the tolerant parse stage gives the same result on an input
text and on the same text with its garbage lines (the lines whose parse
result is empty, which always includes the empty line) removed. -/
theorem parse_skips_garbage (sjp : Str → Option JItem) (text : Str)
    (hempty : sjp [] = none) :
    parseStage sjp text =
      parseStage sjp (joinLines ((splitLines text).filter (fun l => (sjp l).isSome))) := by
  rw [parseStage_eq_filterMap, parseStage_eq_filterMap]
  by_cases hk : (splitLines text).filter (fun l => (sjp l).isSome) = []
  · rw [hk, ← filterMap_keep_isSome sjp (splitLines text), hk]
    simp [joinLines, splitLines, splitOnChar, List.filterMap_cons, hempty]
  · rw [splitLines_joinLines hk
      (fun l hl => mem_splitOnChar_not_sep (List.mem_of_mem_filter hl))]
    rw [← filterMap_keep_isSome sjp (splitLines text)]

theorem parse_skips_garbage_witness :
    (sjp0 [] = none)
    ∧ parseStage sjp0 ("J\ngarbage\n\nJ").toList =
        parseStage sjp0 (joinLines ((splitLines ("J\ngarbage\n\nJ").toList).filter
          (fun l => (sjp0 l).isSome))) :=
  ⟨rfl, parse_skips_garbage sjp0 ("J\ngarbage\n\nJ").toList rfl⟩

/-- Claim C7 (amended): a spawn failure with only benign stderr lines and
non-empty stdout is not propagated — the pipeline continues exactly as if
the process had succeeded with that stdout; it returns a DependencyGraph
whenever the subsequent conversion does not throw (in particular whenever
every surviving parsed entry has a `children` value). -/
theorem getProdDependencies_recovers (sjp : Str → Option JItem) (e : SpawnError)
    (hben : ((splitOnChar '\n' e.stderr).foldl
      (fun failed l => failed || lineCritical l) false) = false)
    (hout : e.stdout.isEmpty = false) :
    getProdDependencies sjp (ProcResult.spawnError e)
        = getProdDependencies sjp (ProcResult.ok e.stdout)
    ∧ ((∀ it ∈ parseStage sjp e.stdout, it.children.isSome = true) →
        ∃ g, getProdDependencies sjp (ProcResult.spawnError e) = Except.ok g) := by
  have hrec : recoverSpawn (ProcResult.spawnError e) = Except.ok e.stdout := by
    simp [recoverSpawn, hben, hout]
  have hok : recoverSpawn (ProcResult.ok e.stdout) = Except.ok e.stdout := rfl
  constructor
  · simp [getProdDependencies, hrec, hok]
  · intro hch
    obtain ⟨vs, hvs⟩ := buildVersions_ok_of_children hch
    refine ⟨⟨[], convertValues vs PathField.value (parseStage sjp e.stdout)⟩, ?_⟩
    simp [getProdDependencies, hrec, hvs]

theorem getProdDependencies_recovers_witness :
    (((splitOnChar '\n' (SpawnError.mk ['J'] []).stderr).foldl
        (fun failed l => failed || lineCritical l) false) = false)
    ∧ ((SpawnError.mk ['J'] []).stdout.isEmpty = false)
    ∧ (getProdDependencies sjpOkDemo (ProcResult.spawnError (SpawnError.mk ['J'] []))
        = getProdDependencies sjpOkDemo (ProcResult.ok ['J']))
    ∧ (∃ g, getProdDependencies sjpOkDemo (ProcResult.spawnError (SpawnError.mk ['J'] []))
        = Except.ok g) :=
  ⟨by decide, by decide,
    (getProdDependencies_recovers sjpOkDemo (SpawnError.mk ['J'] [])
      (by decide) (by decide)).1,
    (getProdDependencies_recovers sjpOkDemo (SpawnError.mk ['J'] [])
      (by decide) (by decide)).2 (by decide)⟩

/-- Claim C7 (counterexample): with empty stderr (all lines benign) and
non-empty stdout, the spawn failure is indeed not propagated, but when
the recovered stdout parses to an entry with no `children` value the
result is the thrown `TypeError`, NOT a DependencyGraph. -/
theorem getProdDependencies_recovered_error_cex :
    (((splitOnChar '\n' (SpawnError.mk ['J'] []).stderr).foldl
        (fun failed l => failed || lineCritical l) false) = false)
    ∧ ((SpawnError.mk ['J'] []).stdout.isEmpty = false)
    ∧ getProdDependencies sjpChildless (ProcResult.spawnError (SpawnError.mk ['J'] []))
        = Except.error YarnError.typeError :=
  ⟨rfl, rfl, rfl⟩

/-- Claim C8: every collected replacement pair rewrites its captured path
to `pathToPackageRoot + "/" + oldRef` with every backslash replaced by a
forward slash. -/
theorem collectReplacements_newRef_shape (p t : Str) (rep : Replacement)
    (h : rep ∈ collectReplacements p t) :
    rep.newRef = slashNormalize (p ++ '/' :: rep.oldRef) := by
  obtain ⟨r, hr, rfl⟩ := List.mem_map.mp h
  rfl

theorem collectReplacements_newRef_shape_witness :
    ((⟨['.', '/', 'q'], ['r', '/', '.', '/', 'q']⟩ : Replacement)
        ∈ collectReplacements ['r'] ("a@./q:").toList)
    ∧ (⟨['.', '/', 'q'], ['r', '/', '.', '/', 'q']⟩ : Replacement).newRef
        = slashNormalize (['r'] ++ '/' ::
            (⟨['.', '/', 'q'], ['r', '/', '.', '/', 'q']⟩ : Replacement).oldRef) :=
  ⟨by decide,
    collectReplacements_newRef_shape ['r'] ("a@./q:").toList
      ⟨['.', '/', 'q'], ['r', '/', '.', '/', 'q']⟩ (by decide)⟩

/-- Claim C9: on a lockfile text with no match of the reference pattern,
`rebaseLockfile` is the identity (and it is total by construction). -/
theorem rebaseLockfile_id_of_no_match (p t : Str) (h : scanRefs t = []) :
    rebaseLockfile p t = t :=
  rebase_of_no_refs p t h

theorem rebaseLockfile_id_of_no_match_witness :
    (scanRefs ("hello").toList = [])
    ∧ rebaseLockfile ['r'] ("hello").toList = ("hello").toList :=
  ⟨by decide, rebaseLockfile_id_of_no_match ['r'] ("hello").toList (by decide)⟩

/-- Claim C10: every collected match has its `@` preceded by a character
that is neither a double quote nor a forward slash; consequently a
file-path reference at the very start of the text, or one whose `@`
immediately follows `"` or `/`, is never collected, and such texts are
returned unrewritten. -/
theorem scanRefs_pre_not_quote_slash (t p : Str) (r : LockRef) (h : r ∈ scanRefs t) :
    (r.pre ≠ '"' ∧ r.pre ≠ '/')
    ∧ rebaseLockfile p ("@file:./x\"").toList = ("@file:./x\"").toList
    ∧ rebaseLockfile p ("\"@file:./a\",/@./b\"").toList
        = ("\"@file:./a\",/@./b\"").toList := by
  obtain ⟨_, _, h1, h2, _⟩ := scanRefs_mem h
  exact ⟨⟨h1, h2⟩, rebase_of_no_refs _ _ (by decide), rebase_of_no_refs _ _ (by decide)⟩

theorem scanRefs_pre_not_quote_slash_witness :
    ((⟨'z', false, ['.', '.', '/', 'd'], ','⟩ : LockRef) ∈ scanRefs ("z@../d,").toList)
    ∧ ((('z' : Char) ≠ '"' ∧ ('z' : Char) ≠ '/')
      ∧ rebaseLockfile ['q'] ("@file:./x\"").toList = ("@file:./x\"").toList
      ∧ rebaseLockfile ['q'] ("\"@file:./a\",/@./b\"").toList
          = ("\"@file:./a\",/@./b\"").toList) :=
  ⟨by decide,
    scanRefs_pre_not_quote_slash ("z@../d,").toList ['q']
      ⟨'z', false, ['.', '.', '/', 'd'], ','⟩ (by decide)⟩
